import Mathlib

/-!
Formal model of `generate_volume_data.py`, the sudoswap/Berachain airdrop
calculation script.  Python numbers are embedded as exact rationals (the
script performs divisions such as `amount_in / 1e18` and pro-rata splits;
the rational embedding captures the algebra of those operations), Python
dicts are embedded as association lists in insertion order (CPython dicts
preserve insertion order; an update keeps the key position, a fresh key is
appended at the end), and exceptions are embedded as `Except` / `Option`
results.  The RPC transport consumed by the scanner is an explicit oracle
parameter, indexed by a running call counter so that transient failures of
individual calls can be expressed.
-/

set_option linter.unusedVariables false

/-- Total token supply configured at the top of the script
(`TOTAL_BERA_TOKENS = 34000`). -/
def TOTAL_BERA_TOKENS : ℚ := 34000

/-- The five configured pool contract addresses (`POOLS` in the script). -/
def POOLS_YEETARD : String := "0xe9171252d2EEc5BA1eefB6e2FEf62BC32c061AFA"

/-- Pool address `BULLA_1` from the script's `POOLS` table. -/
def POOLS_BULLA_1 : String := "0x9c32e283aad3cB32832096873aa94994B0d9386C"

/-- Pool address `BULLA_2` from the script's `POOLS` table. -/
def POOLS_BULLA_2 : String := "0xaAf5DEFf621B743f25356F7692c171dFafaeF9dC"

/-- Pool address `BULLA_3` from the script's `POOLS` table. -/
def POOLS_BULLA_3 : String := "0x6DC89967820563cE095696a915237128e146965E"

/-- Pool address `BABY_BERA` from the script's `POOLS` table. -/
def POOLS_BABY_BERA : String := "0x304F9c77C303Eb9445f81Ba6De3d0d516372Ea97"

/-- The three collection tags appearing in `collection_map` and
`collection_volumes` in the script. -/
inductive Collection where
  | YEETARD
  | BULLA
  | BABY_BERA
deriving DecidableEq, Repr, Fintype

/-- The fixed list of collections, in the order the script writes the keys of
`collection_volumes` (`distribute_by_collection`, lines 113-117). -/
def collections_list : List Collection :=
  [Collection.YEETARD, Collection.BULLA, Collection.BABY_BERA]

/-- The `collection_map` dict of `calculate_volumes` (lines 90-96): pool
contract address to collection tag.  A missing key is `none` (a Python
`KeyError`). -/
def collection_map (pool : String) : Option Collection :=
  if pool = POOLS_YEETARD then some Collection.YEETARD
  else if pool = POOLS_BULLA_1 then some Collection.BULLA
  else if pool = POOLS_BULLA_2 then some Collection.BULLA
  else if pool = POOLS_BULLA_3 then some Collection.BULLA
  else if pool = POOLS_BABY_BERA then some Collection.BABY_BERA
  else none

/-- One decoded trade event, exactly the dict appended by `get_pool_events`
(lines 62-69): pool address, transaction hash, block number, sender address
(`tx["from"]`), raw amount in wei, and log index. -/
structure Event where
  pool : String
  tx_hash : String
  block_number : Nat
  address : String
  amount_in : Nat
  log_index : Nat
deriving DecidableEq, Repr

/-- The per-address record accumulated by `calculate_volumes`
(lines 84-88): total volume, per-collection volume (a `defaultdict(int)`,
modelled as a total function defaulting to `0`), and transaction count. -/
@[ext] structure AddressVolume where
  total_volume : ℚ
  collections : Collection → ℚ
  tx_count : Nat

/-- The zero record a fresh `defaultdict` entry starts from
(lines 84-88 of the script). -/
def emptyVolume : AddressVolume :=
  { total_volume := 0, collections := fun _ => 0, tx_count := 0 }

/-- One fold step of `calculate_volumes` on an existing record
(lines 104-106): add the amount to `total_volume` and to the entry of the
pool's collection, and increment `tx_count`. -/
def updateVolume (v : AddressVolume) (c : Collection) (amt : ℚ) : AddressVolume :=
  { total_volume := v.total_volume + amt
    collections := fun c2 => if c2 = c then v.collections c2 + amt else v.collections c2
    tx_count := v.tx_count + 1 }

/-- The wei-to-BERA conversion `event["amount_in"] / 1e18` (line 101), as an
exact rational. -/
def amtQ (e : Event) : ℚ := (e.amount_in : ℚ) / (10 ^ 18 : ℚ)

/-- The collection of an event's pool, total for convenience; it is only
used on events whose pool is in `collection_map`. -/
def poolCollection (e : Event) : Collection :=
  (collection_map e.pool).getD Collection.YEETARD

/-- Update-or-append on the insertion-ordered association list that models
the `address_data` dict: an existing key keeps its position and has its
record updated in place, a fresh key is appended at the end (CPython dict
semantics for `address_data[address][...] += ...` on a `defaultdict`). -/
def insertEvent (a : String) (c : Collection) (amt : ℚ) :
    List (String × AddressVolume) → List (String × AddressVolume)
  | [] => [(a, updateVolume emptyVolume c amt)]
  | p :: rest =>
    if p.1 == a then (p.1, updateVolume p.2 c amt) :: rest
    else p :: insertEvent a c amt rest

/-- One iteration of the `for event in all_events` loop of
`calculate_volumes` (lines 98-106), with the pool already resolved. -/
def applyEvent (acc : List (String × AddressVolume)) (e : Event) :
    List (String × AddressVolume) :=
  insertEvent e.address.toLower (poolCollection e) (amtQ e) acc

/-- The successful-path accumulator of `calculate_volumes`: fold every event
into the `address_data` association list. -/
def calcPure (l : List Event) : List (String × AddressVolume) :=
  l.foldl applyEvent []

/-- One iteration of `calculate_volumes` including the
`collection_map[pool]` lookup (line 102), which raises `KeyError` — modelled
as `Except.error` carrying the offending pool address — when the pool is not
configured. -/
def processEvent (acc : List (String × AddressVolume)) (e : Event) :
    Except String (List (String × AddressVolume)) :=
  match collection_map e.pool with
  | none => .error e.pool
  | some _ => .ok (applyEvent acc e)

/-- `calculate_volumes` (lines 82-108): fold all events, failing with the
pool address on the first event whose pool is not in `collection_map`. -/
def calculate_volumes (l : List Event) :
    Except String (List (String × AddressVolume)) :=
  l.foldlM processEvent []

/-- Dict lookup on the association list that models `address_data` /
`distribution`. -/
def lookupVol (a : String) (r : List (String × AddressVolume)) :
    Option AddressVolume :=
  (r.find? (fun p => p.1 == a)).map Prod.snd

/-- The events of `l` attributed to the (already lower-cased) trader
address `a`, i.e. those with `event["address"].lower() == a`. -/
def tradesOf (a : String) (l : List Event) : List Event :=
  l.filter (fun e => e.address.toLower == a)

/-- The totals `calculate_volumes` accumulates for one trader address:
summed converted amounts, per-collection summed amounts, and the number of
that trader's events. -/
def volOf (a : String) (l : List Event) : AddressVolume :=
  { total_volume := ((tradesOf a l).map amtQ).sum
    collections := fun c =>
      (((tradesOf a l).filter (fun e => poolCollection e == c)).map amtQ).sum
    tx_count := (tradesOf a l).length }

/-- Update-or-append on the `distribution` `defaultdict(float)` of
`distribute_by_collection` (line 136: `distribution[address] += allocation`). -/
def addAlloc (a : String) (x : ℚ) : List (String × ℚ) → List (String × ℚ)
  | [] => [(a, x)]
  | p :: rest => if p.1 == a then (p.1, p.2 + x) :: rest else p :: addAlloc a x rest

/-- Sum of the values of an allocation dict. -/
def sumVals (d : List (String × ℚ)) : ℚ := (d.map Prod.snd).sum

/-- The inner dict `collection_volumes[collection]` built by lines 119-122:
the addresses whose volume in collection `c` is strictly positive, each with
that volume, in `address_data` order. -/
def collectionVolumes (address_data : List (String × AddressVolume))
    (c : Collection) : List (String × ℚ) :=
  (address_data.filter (fun p => decide (0 < p.2.collections c))).map
    (fun p => (p.1, p.2.collections c))

/-- One iteration of the `for collection, addresses in
collection_volumes.items()` loop of `distribute_by_collection`
(lines 130-136): when the collection's summed (filtered) volume is positive,
every address of the collection receives `volume / total_collection_volume *
tokens_per_collection` added into the `distribution` dict, where
`tokens_per_collection = total_tokens / 3` (line 125); otherwise the dict is
unchanged. -/
def collectionStep (address_data : List (String × AddressVolume))
    (total_tokens : ℚ) (dist : List (String × ℚ)) (c : Collection) :
    List (String × ℚ) :=
  let tokens_per_collection := total_tokens / 3
  let addresses := collectionVolumes address_data c
  let total_collection_volume := (addresses.map Prod.snd).sum
  if 0 < total_collection_volume then
    addresses.foldl
      (fun d p => addAlloc p.1 (p.2 / total_collection_volume * tokens_per_collection) d)
      dist
  else dist

/-- `distribute_by_collection` (lines 110-138): one third of the supply per
collection, distributed pro rata inside each collection over the addresses
with strictly positive volume there; a collection whose (filtered) volume
total is not positive distributes nothing. -/
def distribute_by_collection (address_data : List (String × AddressVolume))
    (total_tokens : ℚ) : List (String × ℚ) :=
  collections_list.foldl (collectionStep address_data total_tokens) []

/-- The total volume of collection `c` over all addresses of
`address_data` (summing every entry, not only the strictly positive
ones). -/
def collTotal (address_data : List (String × AddressVolume)) (c : Collection) : ℚ :=
  (address_data.map (fun p => p.2.collections c)).sum

/-- The grand total `sum(data["total_volume"] for data in
address_data.values())` (line 142). -/
def totalVol (address_data : List (String × AddressVolume)) : ℚ :=
  (address_data.map (fun p => p.2.total_volume)).sum

/-- `distribute_by_total_volume` (lines 140-151): every address of
`address_data` receives `total_volume_share * total_tokens` when the grand
total is positive, and `0` otherwise (the guard of line 146 prevents the
division). -/
def distribute_by_total_volume (address_data : List (String × AddressVolume))
    (total_tokens : ℚ) : List (String × ℚ) :=
  let total_volume := totalVol address_data
  address_data.map
    (fun p => (p.1,
      if 0 < total_volume then p.2.total_volume / total_volume * total_tokens
      else 0))

/-- Stable descending insertion on allocation values: the new element is
placed after every element with a strictly larger allocation and before the
rest (so before elements with an equal allocation that came later in fold
order). -/
def insertAlloc (x : String × ℚ) : List (String × ℚ) → List (String × ℚ)
  | [] => [x]
  | y :: ys => if x.2 < y.2 then y :: insertAlloc x ys else x :: y :: ys

/-- The ranking of line 197/199, `sorted(results.items(), key=lambda x:
x[1]["allocation"], reverse=True)`, with each entry reduced to the one field
the sort key reads.  Python's `sorted` is a stable sort; `rankList` is a
stable sort by allocation descending, hence produces the same sequence. -/
def rankList (l : List (String × ℚ)) : List (String × ℚ) :=
  l.foldr insertAlloc []

/-- The `chunk_size = 5000` constant of `get_pool_events` (line 39). -/
def chunk_size : Nat := 5000

/-- The block sub-ranges visited by the `while current_block <= to_block`
loop of `get_pool_events` (lines 42-72) when every query succeeds: from
`current_block`, the range `[current_block, min (current_block + chunk_size)
to_block]` is queried and the loop resumes one block after its end.  The
structural fuel `to_block + 1 - from_block` bounds the number of
iterations; the completeness theorem below shows it is never exhausted. -/
def subRangesFuel : Nat → Nat → Nat → List (Nat × Nat)
  | 0, _, _ => []
  | fuel + 1, current_block, to_block =>
    if current_block ≤ to_block then
      let end_block := min (current_block + chunk_size) to_block
      (current_block, end_block) :: subRangesFuel fuel (end_block + 1) to_block
    else []

/-- The sub-range partition of a whole scan of `[from_block, to_block]`. -/
def scanSubRanges (from_block to_block : Nat) : List (Nat × Nat) :=
  subRangesFuel (to_block + 1 - from_block) from_block to_block

/-- A raw log entry as consumed by the decoding loop of `get_pool_events`:
`data` is the list of hexadecimal digits of the log's data payload after the
`0x` prefix (so a 32-byte payload has 64 digits), plus transaction hash,
block number and log index. -/
structure RawLog where
  data : List Nat
  transactionHash : String
  blockNumber : Nat
  logIndex : Nat
deriving DecidableEq, Repr

/-- The RPC transport consumed by `get_pool_events`, as an oracle indexed by
a running call counter (each RPC call advances the counter), so one call can
fail while its retry succeeds.  `none` models a raised exception. -/
structure Transport where
  getLogs : Nat → Nat × Nat → Option (List RawLog)
  getTransaction : Nat → String → Option String

/-- The amount decoding `int(log["data"][:66], 16)` of line 57: the first 64
hex digits after `0x` are parsed as a big-endian integer.  `log["data"][:66]`
of a payload shorter than 32 bytes simply yields the shorter string, which
`int` still parses; only an empty digit string (`int("0x", 16)`) raises
`ValueError`. -/
def parseAmount (data : List Nat) : Option Nat :=
  let first32 := data.take 64
  if first32.isEmpty then none
  else some (first32.foldl (fun acc d => 16 * acc + d) 0)

/-- The `for log in logs` body of lines 55-69: decode the amount, fetch the
transaction, and append the event dict to the shared `events` list.  A
raised exception (`none` from decoding or from `get_transaction`) aborts the
loop; the events already appended in this and earlier iterations are kept,
because `events` is mutated in place.  Returns the advanced call counter,
the events list, and whether the whole sub-range was processed without an
exception. -/
def processLogs (tr : Transport) (pool : String) :
    List RawLog → Nat → List Event → Nat × List Event × Bool
  | [], k, events => (k, events, true)
  | log :: rest, k, events =>
    match parseAmount log.data with
    | none => (k, events, false)
    | some amount_in =>
      match tr.getTransaction k log.transactionHash with
      | none => (k + 1, events, false)
      | some fromAddr =>
        processLogs tr pool rest (k + 1)
          (events ++ [{ pool := pool, tx_hash := log.transactionHash,
                        block_number := log.blockNumber, address := fromAddr,
                        amount_in := amount_in, log_index := log.logIndex }])

/-- `get_pool_events` (lines 31-80): the `while current_block <= to_block`
loop with its `try/except`.  On any exception — a failed `get_logs` call or
a failure inside the log-processing loop — the `except` branch retries the
same sub-range (`continue` without advancing `current_block`), keeping the
`events` list as it stands.  On success the loop advances one block past the
sub-range's end.  `fuel` bounds the number of loop iterations, since the
retry loop of the script can run forever; `none` means the fuel ran out with
the loop still running. -/
def get_pool_events (tr : Transport) (pool : String) :
    Nat → Nat → Nat → Nat → List Event → Option (List Event)
  | 0, _, _, _, _ => none
  | fuel + 1, current_block, to_block, k, events =>
    if current_block ≤ to_block then
      let end_block := min (current_block + chunk_size) to_block
      match tr.getLogs k (current_block, end_block) with
      | none => get_pool_events tr pool fuel current_block to_block (k + 1) events
      | some logs =>
        match processLogs tr pool logs (k + 1) events with
        | (k2, events2, true) =>
          get_pool_events tr pool fuel (end_block + 1) to_block k2 events2
        | (k2, events2, false) =>
          get_pool_events tr pool fuel current_block to_block k2 events2
    else some events

/-! ### Association-list lemmas for the `address_data` accumulator -/

theorem lookupVol_nil (a : String) : lookupVol a [] = none := rfl

theorem lookupVol_cons (a : String) (p : String × AddressVolume)
    (rest : List (String × AddressVolume)) :
    lookupVol a (p :: rest) = if p.1 = a then some p.2 else lookupVol a rest := by
  by_cases h : p.1 = a
  · rw [lookupVol, List.find?_cons_of_pos _ (by simpa [beq_iff_eq] using h), if_pos h]
    rfl
  · rw [lookupVol, List.find?_cons_of_neg _ (by simpa [beq_iff_eq] using h), if_neg h]
    rfl

theorem insertEvent_cons (a : String) (c : Collection) (amt : ℚ)
    (p : String × AddressVolume) (rest : List (String × AddressVolume)) :
    insertEvent a c amt (p :: rest) =
      if p.1 = a then (p.1, updateVolume p.2 c amt) :: rest
      else p :: insertEvent a c amt rest := by
  by_cases h : p.1 = a
  · simp only [insertEvent]
    rw [if_pos (by simpa [beq_iff_eq] using h), if_pos h]
  · simp only [insertEvent]
    rw [if_neg (by simpa [beq_iff_eq] using h), if_neg h]

theorem insertEvent_lookup (a a' : String) (c : Collection) (amt : ℚ)
    (acc : List (String × AddressVolume)) :
    lookupVol a (insertEvent a' c amt acc) =
      if a = a' then some (updateVolume ((lookupVol a acc).getD emptyVolume) c amt)
      else lookupVol a acc := by
  induction acc with
  | nil =>
    simp only [insertEvent, lookupVol_nil, lookupVol_cons, Option.getD_none]
    by_cases h : a = a'
    · rw [if_pos h.symm, if_pos h]
    · rw [if_neg (Ne.symm h), if_neg h]
  | cons p rest ih =>
    rw [insertEvent_cons]
    by_cases hp : p.1 = a'
    · rw [if_pos hp, lookupVol_cons, lookupVol_cons]
      by_cases hpa : p.1 = a
      · have ha : a = a' := (hpa.symm).trans hp
        rw [if_pos hpa, if_pos ha, if_pos hpa]
        simp
      · by_cases ha : a = a'
        · exact absurd (hp.trans ha.symm) hpa
        · rw [if_neg hpa, if_neg ha, if_neg hpa]
    · rw [if_neg hp, lookupVol_cons, lookupVol_cons]
      by_cases hpa : p.1 = a
      · have ha : ¬ a = a' := fun h => hp (hpa.trans h)
        rw [if_pos hpa, if_neg ha, if_pos hpa]
      · rw [if_neg hpa, if_neg hpa, ih]

theorem insertEvent_keys (a' : String) (c : Collection) (amt : ℚ)
    (acc : List (String × AddressVolume)) :
    (insertEvent a' c amt acc).map Prod.fst =
      if a' ∈ acc.map Prod.fst then acc.map Prod.fst
      else acc.map Prod.fst ++ [a'] := by
  induction acc with
  | nil => simp [insertEvent]
  | cons p rest ih =>
    rw [insertEvent_cons]
    by_cases hp : p.1 = a'
    · simp [hp]
    · by_cases hm : a' ∈ rest.map Prod.fst <;>
        simp [hp, Ne.symm hp, hm, ih]

theorem insertEvent_keys_nodup (a' : String) (c : Collection) (amt : ℚ)
    (acc : List (String × AddressVolume))
    (h : (acc.map Prod.fst).Nodup) :
    ((insertEvent a' c amt acc).map Prod.fst).Nodup := by
  rw [insertEvent_keys]
  by_cases hm : a' ∈ acc.map Prod.fst
  · rw [if_pos hm]; exact h
  · rw [if_neg hm]
    refine List.Nodup.append h (List.nodup_singleton a') ?_
    intro b hb hb'
    rw [List.mem_singleton] at hb'
    exact hm (hb' ▸ hb)

theorem calcPure_keys_nodup (l : List Event) :
    ((calcPure l).map Prod.fst).Nodup := by
  suffices h : ∀ acc : List (String × AddressVolume), (acc.map Prod.fst).Nodup →
      ((l.foldl applyEvent acc).map Prod.fst).Nodup by
    exact h [] (by simp)
  induction l with
  | nil => intro acc hacc; simpa using hacc
  | cons e l ih =>
    intro acc hacc
    exact ih _ (insertEvent_keys_nodup _ _ _ _ hacc)

theorem lookupVol_mem_keys {a : String} {r : List (String × AddressVolume)}
    {v : AddressVolume} (h : lookupVol a r = some v) : a ∈ r.map Prod.fst := by
  unfold lookupVol at h
  obtain ⟨p, hp, hv⟩ := Option.map_eq_some'.mp h
  have hpa := List.find?_some hp
  have hmem := List.mem_of_find?_eq_some hp
  exact List.mem_map.mpr ⟨p, hmem, by simpa [beq_iff_eq] using hpa⟩

theorem tradesOf_append_singleton (a : String) (l : List Event) (e : Event) :
    tradesOf a (l ++ [e]) =
      tradesOf a l ++ if e.address.toLower = a then [e] else [] := by
  by_cases h : e.address.toLower = a <;> simp [tradesOf, List.filter_append, h]

/-- Characterization of the `calculate_volumes` accumulator: the entry of a
lower-cased trader address holds exactly the sums and the count of that
trader's events, and an address without events has no entry. -/
theorem lookupVol_calcPure (l : List Event) (a : String) :
    lookupVol a (calcPure l) =
      if tradesOf a l = [] then none else some (volOf a l) := by
  induction l using List.reverseRecOn with
  | nil => simp [calcPure, lookupVol, tradesOf, volOf]
  | append_singleton l e ih =>
    have hcp : calcPure (l ++ [e]) = applyEvent (calcPure l) e := by
      simp [calcPure, List.foldl_append]
    rw [hcp]
    unfold applyEvent
    rw [insertEvent_lookup]
    by_cases ha : a = e.address.toLower
    · have htr : tradesOf a (l ++ [e]) = tradesOf a l ++ [e] := by
        rw [tradesOf_append_singleton, if_pos ha.symm]
      rw [if_pos ha, htr, if_neg (show ¬(tradesOf a l ++ [e] = []) by simp), ih]
      by_cases hemp : tradesOf a l = []
      · rw [if_pos hemp]
        simp only [Option.getD_none]
        apply congrArg
        ext c2
        · simp [updateVolume, emptyVolume, volOf, htr, hemp]
        · by_cases hc : poolCollection e = c2
          · simp [updateVolume, emptyVolume, volOf, htr, hemp, hc]
          · simp [updateVolume, emptyVolume, volOf, htr, hemp, hc, Ne.symm hc]
        · simp [updateVolume, emptyVolume, volOf, htr, hemp]
      · rw [if_neg hemp]
        simp only [Option.getD_some]
        apply congrArg
        ext c2
        · simp [updateVolume, volOf, htr]
        · by_cases hc : poolCollection e = c2
          · simp [updateVolume, volOf, htr, List.filter_append, hc]
          · simp [updateVolume, volOf, htr, List.filter_append, hc, Ne.symm hc]
        · simp [updateVolume, volOf, htr]
    · have htr : tradesOf a (l ++ [e]) = tradesOf a l := by
        rw [tradesOf_append_singleton, if_neg (fun h => ha h.symm)]
        simp
      have hvol : volOf a (l ++ [e]) = volOf a l := by
        unfold volOf; rw [htr]
      rw [if_neg ha, htr, hvol]
      exact ih

/-! ### Success and failure of `calculate_volumes` -/

theorem foldlM_processEvent_ok (l : List Event) :
    ∀ acc : List (String × AddressVolume),
      (∀ e ∈ l, (collection_map e.pool).isSome) →
      l.foldlM processEvent acc = .ok (l.foldl applyEvent acc) := by
  induction l with
  | nil => intro acc h; rfl
  | cons e l ih =>
    intro acc h
    have he : (collection_map e.pool).isSome := h e (by simp)
    obtain ⟨c, hc⟩ := Option.isSome_iff_exists.mp he
    rw [List.foldlM_cons]
    have hpe : processEvent acc e = .ok (applyEvent acc e) := by
      unfold processEvent; rw [hc]
    rw [hpe]
    show l.foldlM processEvent (applyEvent acc e) = _
    rw [ih _ (fun e2 he2 => h e2 (by simp [he2])), List.foldl_cons]

theorem foldlM_processEvent_of_ok (l : List Event) :
    ∀ (acc r : List (String × AddressVolume)),
      l.foldlM processEvent acc = .ok r →
      (∀ e ∈ l, (collection_map e.pool).isSome) ∧ r = l.foldl applyEvent acc := by
  induction l with
  | nil =>
    intro acc r h
    refine ⟨by simp, ?_⟩
    have h' : Except.ok acc = Except.ok (ε := String) r := h
    injection h' with h2
    exact h2.symm
  | cons e l ih =>
    intro acc r h
    rw [List.foldlM_cons] at h
    cases hc : collection_map e.pool with
    | none =>
      rw [show processEvent acc e = .error e.pool by unfold processEvent; rw [hc]] at h
      have h' : (Except.error e.pool : Except String (List (String × AddressVolume))) = .ok r := h
      exact Except.noConfusion h'
    | some c =>
      rw [show processEvent acc e = .ok (applyEvent acc e) by
            unfold processEvent; rw [hc]] at h
      have h' : l.foldlM processEvent (applyEvent acc e) = .ok r := h
      obtain ⟨hk, hr⟩ := ih _ _ h'
      refine ⟨?_, by simpa [List.foldl_cons] using hr⟩
      intro e2 he2
      rcases List.mem_cons.mp he2 with h2 | h2
      · subst h2; simp [hc]
      · exact hk e2 h2

theorem calculate_volumes_eq_ok (l : List Event)
    (h : ∀ e ∈ l, (collection_map e.pool).isSome) :
    calculate_volumes l = .ok (calcPure l) :=
  foldlM_processEvent_ok l [] h

theorem calculate_volumes_ok_elim {l : List Event}
    {r : List (String × AddressVolume)} (h : calculate_volumes l = .ok r) :
    (∀ e ∈ l, (collection_map e.pool).isSome) ∧ r = calcPure l :=
  foldlM_processEvent_of_ok l [] r h

theorem calculate_volumes_error_of_unknown (l : List Event)
    (h : ∃ e ∈ l, collection_map e.pool = none) :
    ∃ s, calculate_volumes l = .error s := by
  cases hre : calculate_volumes l with
  | ok r =>
    obtain ⟨e, he, hnone⟩ := h
    have hsome := (calculate_volumes_ok_elim hre).1 e he
    rw [hnone] at hsome
    simp at hsome
  | error s => exact ⟨s, rfl⟩

/-- C8: aggregation fails with the `KeyError` raised by
`collection_map[pool]` (the spec's `UnknownPoolError`) exactly when some
input event's pool address is missing from `collection_map`, and succeeds
exactly when every event's pool is present.  The error value is a plain
`Except.error` propagated to the caller; no retry surrounds
`calculate_volumes` (the retry loop exists only inside `get_pool_events`),
so the failure aborts the run. -/
theorem calculate_volumes_unknown_pool_iff (l : List Event) :
    ((∀ e ∈ l, (collection_map e.pool).isSome) ↔ ∃ r, calculate_volumes l = .ok r) ∧
    ((∃ e ∈ l, collection_map e.pool = none) ↔ ∃ s, calculate_volumes l = .error s) := by
  constructor
  · constructor
    · intro h; exact ⟨_, calculate_volumes_eq_ok l h⟩
    · rintro ⟨r, hr⟩; exact (calculate_volumes_ok_elim hr).1
  · constructor
    · exact calculate_volumes_error_of_unknown l
    · rintro ⟨s, hs⟩
      by_contra hno
      push_neg at hno
      have hall : ∀ e ∈ l, (collection_map e.pool).isSome := fun e he =>
        Option.ne_none_iff_isSome.mp (hno e he)
      rw [calculate_volumes_eq_ok l hall] at hs
      exact Except.noConfusion hs

/-- C5: aggregation is permutation-invariant.  For a non-empty event list
and any permutation of it, the two (successful) runs of `calculate_volumes`
agree on every address's entry: total volume, every per-collection volume,
and the transaction count (the looked-up `AddressVolume` records are
equal). -/
theorem calculate_volumes_perm_invariant (l₁ l₂ : List Event)
    (hne : l₁ ≠ []) (hperm : l₁.Perm l₂)
    (r₁ r₂ : List (String × AddressVolume))
    (h₁ : calculate_volumes l₁ = .ok r₁) (h₂ : calculate_volumes l₂ = .ok r₂)
    (a : String) : lookupVol a r₁ = lookupVol a r₂ := by
  obtain ⟨-, hr₁⟩ := calculate_volumes_ok_elim h₁
  obtain ⟨-, hr₂⟩ := calculate_volumes_ok_elim h₂
  subst hr₁ hr₂
  rw [lookupVol_calcPure, lookupVol_calcPure]
  have htperm : (tradesOf a l₁).Perm (tradesOf a l₂) := hperm.filter _
  by_cases hemp : tradesOf a l₁ = []
  · have hemp2 : tradesOf a l₂ = [] := ((hemp ▸ htperm).symm).eq_nil
    rw [if_pos hemp, if_pos hemp2]
  · have hemp2 : ¬ tradesOf a l₂ = [] := fun h2 => hemp ((h2 ▸ htperm).eq_nil)
    rw [if_neg hemp, if_neg hemp2]
    apply congrArg
    unfold volOf
    congr 1
    · exact (htperm.map amtQ).sum_eq
    · funext c2
      exact (((htperm.filter _).map amtQ)).sum_eq
    · exact htperm.length_eq

/-- C9: after a successful aggregation, the lower-cased address of each
input event is the key of exactly one entry of the accumulator (so records
whose addresses differ only in casing land in the same entry), and that
entry's `tx_count` is the number of input records with that
case-insensitive address. -/
theorem calculate_volumes_entry_unique (l : List Event)
    (r : List (String × AddressVolume)) (h : calculate_volumes l = .ok r)
    (e : Event) (he : e ∈ l) :
    ((r.map Prod.fst).count e.address.toLower = 1) ∧
    ∃ v, lookupVol e.address.toLower r = some v ∧
      v.tx_count =
        (l.filter (fun e2 => e2.address.toLower == e.address.toLower)).length := by
  obtain ⟨-, hr⟩ := calculate_volumes_ok_elim h
  subst hr
  have hmem : e ∈ tradesOf e.address.toLower l := by
    simp [tradesOf, List.mem_filter, he]
  have hne : tradesOf e.address.toLower l ≠ [] := by
    intro h0; rw [h0] at hmem; simp at hmem
  have hlook : lookupVol e.address.toLower (calcPure l) =
      some (volOf e.address.toLower l) := by
    rw [lookupVol_calcPure, if_neg hne]
  exact ⟨List.count_eq_one_of_mem (calcPure_keys_nodup l) (lookupVol_mem_keys hlook),
    _, hlook, rfl⟩

/-! ### Concrete events used by the witnesses -/

/-- A YEETARD-pool trade by `0xAb`. -/
def evA : Event :=
  { pool := POOLS_YEETARD, tx_hash := "0xt1", block_number := 1,
    address := "0xAb", amount_in := 300, log_index := 0 }

/-- A BABY_BERA-pool trade by `0xaB`, the same trader as `evA` up to
casing. -/
def evB : Event :=
  { pool := POOLS_BABY_BERA, tx_hash := "0xt2", block_number := 2,
    address := "0xaB", amount_in := 700, log_index := 1 }

/-- An event whose pool address is not in `collection_map`. -/
def evBad : Event :=
  { pool := "0xdead", tx_hash := "0xt3", block_number := 3,
    address := "0xCc", amount_in := 5, log_index := 0 }

theorem calculate_volumes_unknown_pool_iff_witness :
    (∃ s, calculate_volumes [evBad] = .error s) ∧
    (∃ r, calculate_volumes [evA, evB] = .ok r) := by
  constructor
  · exact (calculate_volumes_unknown_pool_iff [evBad]).2.mp
      ⟨evBad, by simp, by decide⟩
  · exact (calculate_volumes_unknown_pool_iff [evA, evB]).1.mp (by decide)

theorem calculate_volumes_perm_invariant_witness :
    ([evA, evB] ≠ ([] : List Event)) ∧ [evA, evB].Perm [evB, evA] ∧
    lookupVol "0xab" (calcPure [evA, evB]) = lookupVol "0xab" (calcPure [evB, evA]) := by
  refine ⟨by simp, List.Perm.swap evB evA [], ?_⟩
  exact calculate_volumes_perm_invariant [evA, evB] [evB, evA] (by simp)
    (List.Perm.swap evB evA []) (calcPure [evA, evB]) (calcPure [evB, evA])
    (calculate_volumes_eq_ok _ (by decide)) (calculate_volumes_eq_ok _ (by decide))
    "0xab"

theorem calculate_volumes_entry_unique_witness :
    (((calcPure [evA, evB]).map Prod.fst).count evA.address.toLower = 1) ∧
    ∃ v, lookupVol evA.address.toLower (calcPure [evA, evB]) = some v ∧
      v.tx_count =
        ([evA, evB].filter
          (fun e2 => e2.address.toLower == evA.address.toLower)).length :=
  calculate_volumes_entry_unique [evA, evB] (calcPure [evA, evB])
    (calculate_volumes_eq_ok _ (by decide)) evA (by simp)

/-! ### Sums of the distribution dicts -/

theorem addAlloc_cons (a : String) (x : ℚ) (p : String × ℚ)
    (rest : List (String × ℚ)) :
    addAlloc a x (p :: rest) =
      if p.1 = a then (p.1, p.2 + x) :: rest else p :: addAlloc a x rest := by
  by_cases h : p.1 = a
  · simp only [addAlloc]
    rw [if_pos (by simpa [beq_iff_eq] using h), if_pos h]
  · simp only [addAlloc]
    rw [if_neg (by simpa [beq_iff_eq] using h), if_neg h]

theorem sumVals_addAlloc (a : String) (x : ℚ) (d : List (String × ℚ)) :
    sumVals (addAlloc a x d) = sumVals d + x := by
  induction d with
  | nil => simp [addAlloc, sumVals]
  | cons p rest ih =>
    rw [addAlloc_cons]
    by_cases h : p.1 = a
    · rw [if_pos h]
      simp only [sumVals, List.map_cons, List.sum_cons]
      ring
    · rw [if_neg h]
      simp only [sumVals, List.map_cons, List.sum_cons] at ih ⊢
      rw [ih]
      ring

theorem sumVals_foldl_addAlloc (as : List (String × ℚ)) (g : String × ℚ → ℚ) :
    ∀ dist : List (String × ℚ),
      sumVals (as.foldl (fun d p => addAlloc p.1 (g p) d) dist) =
        sumVals dist + (as.map g).sum := by
  induction as with
  | nil => intro dist; simp
  | cons p rest ih =>
    intro dist
    rw [List.foldl_cons, ih, sumVals_addAlloc]
    simp only [List.map_cons, List.sum_cons]
    ring

theorem sum_map_div_mul {α : Type} (as : List α) (f : α → ℚ) (t s : ℚ) :
    (as.map (fun x => f x / t * s)).sum = (as.map f).sum / t * s := by
  induction as with
  | nil => simp
  | cons x rest ih =>
    simp only [List.map_cons, List.sum_cons, ih]
    ring

theorem sumVals_collectionStep (ad : List (String × AddressVolume)) (T : ℚ)
    (dist : List (String × ℚ)) (c : Collection) :
    sumVals (collectionStep ad T dist c) =
      sumVals dist +
        (if 0 < ((collectionVolumes ad c).map Prod.snd).sum then T / 3 else 0) := by
  unfold collectionStep
  by_cases h : 0 < ((collectionVolumes ad c).map Prod.snd).sum
  · rw [if_pos h, if_pos h, sumVals_foldl_addAlloc, sum_map_div_mul,
      div_self h.ne', one_mul]
  · rw [if_neg h, if_neg h, add_zero]

theorem collectionVolumes_sum_eq (ad : List (String × AddressVolume))
    (c : Collection) (hnn : ∀ p ∈ ad, 0 ≤ p.2.collections c) :
    ((collectionVolumes ad c).map Prod.snd).sum = collTotal ad c := by
  induction ad with
  | nil => simp [collectionVolumes, collTotal]
  | cons p rest ih =>
    have h0 : 0 ≤ p.2.collections c := hnn p (by simp)
    have ihr := ih (fun q hq => hnn q (by simp [hq]))
    unfold collTotal
    rw [List.map_cons, List.sum_cons]
    by_cases hp : 0 < p.2.collections c
    · have hsplit : collectionVolumes (p :: rest) c =
          (p.1, p.2.collections c) :: collectionVolumes rest c := by
        simp only [collectionVolumes, List.filter_cons, decide_eq_true_eq,
          if_pos hp, List.map_cons]
      rw [hsplit, List.map_cons, List.sum_cons, ihr, collTotal]
    · have hz : p.2.collections c = 0 := le_antisymm (not_lt.mp hp) h0
      have hsplit : collectionVolumes (p :: rest) c = collectionVolumes rest c := by
        simp only [collectionVolumes, List.filter_cons, decide_eq_true_eq,
          if_neg hp]
      rw [hsplit, ihr, collTotal, hz, zero_add]

theorem collTotal_nonneg (ad : List (String × AddressVolume)) (c : Collection)
    (hnn : ∀ p ∈ ad, 0 ≤ p.2.collections c) : 0 ≤ collTotal ad c := by
  apply List.sum_nonneg
  intro x hx
  obtain ⟨p, hp, rfl⟩ := List.mem_map.mp hx
  exact hnn p hp

/-- C1: for aggregated data with nonnegative per-collection volumes in which
at least one collection has strictly positive total volume, the values of
`distribute_by_collection` sum exactly to the total supply minus one
per-collection share (`total_tokens / 3`, the supply divided by the number
of collections, which is three) for every collection whose total volume is
zero. -/
theorem distribute_by_collection_sum (ad : List (String × AddressVolume)) (T : ℚ)
    (hnn : ∀ p ∈ ad, ∀ c, 0 ≤ p.2.collections c)
    (hpos : ∃ c, 0 < collTotal ad c) :
    sumVals (distribute_by_collection ad T) =
      T - (T / 3) *
        ((collections_list.filter (fun c => collTotal ad c = 0)).length : ℚ) := by
  have hb : ∀ c, ((collectionVolumes ad c).map Prod.snd).sum = collTotal ad c :=
    fun c => collectionVolumes_sum_eq ad c (fun p hp => hnn p hp c)
  have hnn' : ∀ c, 0 ≤ collTotal ad c :=
    fun c => collTotal_nonneg ad c (fun p hp => hnn p hp c)
  have hposc : ∀ c : Collection, ¬ collTotal ad c = 0 →
      0 < ((collectionVolumes ad c).map Prod.snd).sum := by
    intro c h
    rw [hb c]
    exact lt_of_le_of_ne (hnn' c) (Ne.symm h)
  have hnegc : ∀ c : Collection, collTotal ad c = 0 →
      ¬ 0 < ((collectionVolumes ad c).map Prod.snd).sum := by
    intro c h
    rw [hb c, h]
    exact lt_irrefl 0
  unfold distribute_by_collection
  simp only [collections_list, List.foldl_cons, List.foldl_nil]
  rw [sumVals_collectionStep, sumVals_collectionStep, sumVals_collectionStep]
  by_cases h1 : collTotal ad Collection.YEETARD = 0 <;>
    by_cases h2 : collTotal ad Collection.BULLA = 0 <;>
      by_cases h3 : collTotal ad Collection.BABY_BERA = 0
  · obtain ⟨c, hc⟩ := hpos
    cases c
    · rw [h1] at hc; exact absurd hc (lt_irrefl 0)
    · rw [h2] at hc; exact absurd hc (lt_irrefl 0)
    · rw [h3] at hc; exact absurd hc (lt_irrefl 0)
  all_goals (
    first
      | rw [if_pos (hposc _ h1)] | rw [if_neg (hnegc _ h1)])
  all_goals (
    first
      | rw [if_pos (hposc _ h2)] | rw [if_neg (hnegc _ h2)])
  all_goals (
    first
      | rw [if_pos (hposc _ h3)] | rw [if_neg (hnegc _ h3)])
  all_goals (
    simp only [collections_list, List.filter_cons, List.filter_nil,
      decide_eq_true_eq, h1, h2, h3, if_true, if_false, List.length_cons,
      List.length_nil, sumVals, List.map_nil, List.sum_nil]
    norm_num
    try ring)

/-- C2: the values of `distribute_by_total_volume` sum exactly to the total
supply whenever the grand total volume is strictly positive, and every
address's allocation is exactly `0` (produced by the `else` branch, with no
division) whenever the grand total volume is zero. -/
theorem distribute_by_total_volume_sum (ad : List (String × AddressVolume)) (T : ℚ) :
    (0 < totalVol ad → sumVals (distribute_by_total_volume ad T) = T) ∧
    (totalVol ad = 0 → ∀ q ∈ distribute_by_total_volume ad T, q.2 = 0) := by
  constructor
  · intro hpos
    simp only [distribute_by_total_volume, sumVals, List.map_map]
    have hcomp : (Prod.snd ∘ fun p : String × AddressVolume =>
        (p.1, if 0 < totalVol ad then p.2.total_volume / totalVol ad * T else 0)) =
        fun p : String × AddressVolume =>
          (fun q : String × AddressVolume => q.2.total_volume) p / totalVol ad * T := by
      funext p
      simp [Function.comp, hpos]
    rw [hcomp, sum_map_div_mul ad (fun q => q.2.total_volume) (totalVol ad) T,
      show (ad.map fun q => q.2.total_volume).sum = totalVol ad from rfl,
      div_self hpos.ne', one_mul]
  · intro hz q hq
    simp only [distribute_by_total_volume] at hq
    obtain ⟨p, hp, hpq⟩ := List.mem_map.mp hq
    rw [← hpq]
    simp [hz]

/-! ### Concrete aggregated inputs used by the witnesses -/

/-- A record with volume 300, all of it in the YEETARD collection. -/
def avY1 : AddressVolume :=
  { total_volume := 300
    collections := fun c => if c = Collection.YEETARD then 300 else 0
    tx_count := 1 }

/-- A record with volume 700, all of it in the YEETARD collection. -/
def avY2 : AddressVolume :=
  { total_volume := 700
    collections := fun c => if c = Collection.YEETARD then 700 else 0
    tx_count := 2 }

/-- A record with zero volume everywhere. -/
def avZ : AddressVolume :=
  { total_volume := 0, collections := fun _ => 0, tx_count := 3 }

/-- Two traders, both only in YEETARD, volumes 300 and 700. -/
def adW : List (String × AddressVolume) := [("0xa", avY1), ("0xb", avY2)]

/-- One trader with zero volume. -/
def adZ : List (String × AddressVolume) := [("0xc", avZ)]

theorem distribute_by_collection_sum_witness :
    sumVals (distribute_by_collection adW TOTAL_BERA_TOKENS) =
      TOTAL_BERA_TOKENS - (TOTAL_BERA_TOKENS / 3) *
        ((collections_list.filter (fun c => collTotal adW c = 0)).length : ℚ) :=
  distribute_by_collection_sum adW TOTAL_BERA_TOKENS
    (by
      intro p hp c
      have hcases : p = ("0xa", avY1) ∨ p = ("0xb", avY2) := by
        simpa [adW] using hp
      rcases hcases with rfl | rfl <;> cases c <;> simp [avY1, avY2])
    ⟨Collection.YEETARD, by norm_num [collTotal, adW, avY1, avY2]⟩

theorem distribute_by_total_volume_sum_witness :
    sumVals (distribute_by_total_volume adW TOTAL_BERA_TOKENS) = TOTAL_BERA_TOKENS ∧
    (∀ q ∈ distribute_by_total_volume adZ TOTAL_BERA_TOKENS, q.2 = 0) := by
  constructor
  · exact (distribute_by_total_volume_sum adW TOTAL_BERA_TOKENS).1
      (by norm_num [totalVol, adW, avY1, avY2])
  · exact (distribute_by_total_volume_sum adZ TOTAL_BERA_TOKENS).2
      (by simp [totalVol, adZ, avZ])

/-! ### Membership and sign of the distribution dicts -/

theorem addAlloc_key_mem (a : String) (x : ℚ) (d : List (String × ℚ))
    (q : String × ℚ) (hq : q ∈ addAlloc a x d) : q.1 = a ∨ q ∈ d := by
  induction d with
  | nil =>
    simp only [addAlloc, List.mem_singleton] at hq
    left; rw [hq]
  | cons p rest ih =>
    rw [addAlloc_cons] at hq
    by_cases h : p.1 = a
    · rw [if_pos h] at hq
      rcases List.mem_cons.mp hq with h2 | h2
      · left; rw [h2, h]
      · right; exact List.mem_cons_of_mem p h2
    · rw [if_neg h] at hq
      rcases List.mem_cons.mp hq with h2 | h2
      · right; rw [h2]; exact List.mem_cons_self p rest
      · rcases ih h2 with h3 | h3
        · left; exact h3
        · right; exact List.mem_cons_of_mem p h3

theorem addAlloc_val_nonneg (a : String) (x : ℚ) (d : List (String × ℚ))
    (hd : ∀ q ∈ d, 0 ≤ q.2) (hx : 0 ≤ x) :
    ∀ q ∈ addAlloc a x d, 0 ≤ q.2 := by
  induction d with
  | nil =>
    intro q hq
    simp only [addAlloc, List.mem_singleton] at hq
    rw [hq]; exact hx
  | cons p rest ih =>
    intro q hq
    rw [addAlloc_cons] at hq
    by_cases h : p.1 = a
    · rw [if_pos h] at hq
      rcases List.mem_cons.mp hq with h2 | h2
      · rw [h2]
        exact add_nonneg (hd p (List.mem_cons_self p rest)) hx
      · exact hd q (List.mem_cons_of_mem p h2)
    · rw [if_neg h] at hq
      rcases List.mem_cons.mp hq with h2 | h2
      · rw [h2]; exact hd p (List.mem_cons_self p rest)
      · exact ih (fun r hr => hd r (List.mem_cons_of_mem p hr)) q h2

theorem foldl_addAlloc_key_mem (as : List (String × ℚ)) (g : String × ℚ → ℚ) :
    ∀ (dist : List (String × ℚ)) (q : String × ℚ),
      q ∈ as.foldl (fun d p => addAlloc p.1 (g p) d) dist →
      q.1 ∈ as.map Prod.fst ∨ q ∈ dist := by
  induction as with
  | nil => intro dist q hq; right; simpa using hq
  | cons p rest ih =>
    intro dist q hq
    rw [List.foldl_cons] at hq
    rcases ih _ q hq with h | h
    · left; exact List.mem_cons_of_mem _ h
    · rcases addAlloc_key_mem _ _ _ _ h with h2 | h2
      · left; rw [h2]; exact List.mem_cons_self _ _
      · right; exact h2

theorem foldl_addAlloc_val_nonneg (as : List (String × ℚ)) (g : String × ℚ → ℚ)
    (hg : ∀ p ∈ as, 0 ≤ g p) :
    ∀ dist : List (String × ℚ), (∀ q ∈ dist, 0 ≤ q.2) →
      ∀ q ∈ as.foldl (fun d p => addAlloc p.1 (g p) d) dist, 0 ≤ q.2 := by
  induction as with
  | nil => intro dist hd q hq; exact hd q (by simpa using hq)
  | cons p rest ih =>
    intro dist hd q hq
    rw [List.foldl_cons] at hq
    exact ih (fun r hr => hg r (List.mem_cons_of_mem p hr)) _
      (addAlloc_val_nonneg _ _ _ hd (hg p (List.mem_cons_self p rest))) q hq

theorem collectionStep_key_mem (ad : List (String × AddressVolume)) (T : ℚ)
    (dist : List (String × ℚ)) (c : Collection) (q : String × ℚ)
    (hq : q ∈ collectionStep ad T dist c) :
    (∃ p ∈ ad, p.1 = q.1 ∧ 0 < p.2.collections c) ∨ q ∈ dist := by
  unfold collectionStep at hq
  by_cases h : 0 < ((collectionVolumes ad c).map Prod.snd).sum
  · rw [if_pos h] at hq
    rcases foldl_addAlloc_key_mem _ _ _ _ hq with hk | hd
    · left
      obtain ⟨pr, hpr, hfst⟩ := List.mem_map.mp hk
      obtain ⟨p, hpmem, hpe⟩ := List.mem_map.mp hpr
      have hfil := List.mem_filter.mp hpmem
      refine ⟨p, hfil.1, ?_, by simpa using hfil.2⟩
      rw [← hfst, ← hpe]
    · right; exact hd
  · rw [if_neg h] at hq
    right; exact hq

theorem collectionStep_val_nonneg (ad : List (String × AddressVolume)) (T : ℚ)
    (hT : 0 ≤ T) (dist : List (String × ℚ)) (c : Collection)
    (hd : ∀ q ∈ dist, 0 ≤ q.2) :
    ∀ q ∈ collectionStep ad T dist c, 0 ≤ q.2 := by
  intro q hq
  unfold collectionStep at hq
  by_cases h : 0 < ((collectionVolumes ad c).map Prod.snd).sum
  · rw [if_pos h] at hq
    refine foldl_addAlloc_val_nonneg _ _ ?_ _ hd q hq
    intro p hp
    obtain ⟨r, hrmem, hre⟩ := List.mem_map.mp hp
    have hfil := List.mem_filter.mp hrmem
    have hrpos : 0 < r.2.collections c := by simpa using hfil.2
    have hp2 : p.2 = r.2.collections c := by rw [← hre]
    rw [hp2]
    exact mul_nonneg (div_nonneg hrpos.le h.le) (div_nonneg hT (by norm_num))
  · rw [if_neg h] at hq
    exact hd q hq

theorem foldl_collectionStep_key_mem (ad : List (String × AddressVolume)) (T : ℚ)
    (cs : List Collection) :
    ∀ (dist : List (String × ℚ)) (q : String × ℚ),
      q ∈ cs.foldl (collectionStep ad T) dist →
      (∃ c, ∃ p ∈ ad, p.1 = q.1 ∧ 0 < p.2.collections c) ∨ q ∈ dist := by
  induction cs with
  | nil => intro dist q hq; right; simpa using hq
  | cons c rest ih =>
    intro dist q hq
    rw [List.foldl_cons] at hq
    rcases ih _ q hq with h | h
    · left; exact h
    · rcases collectionStep_key_mem _ _ _ _ _ h with h2 | h2
      · left; exact ⟨c, h2⟩
      · right; exact h2

theorem foldl_collectionStep_val_nonneg (ad : List (String × AddressVolume))
    (T : ℚ) (hT : 0 ≤ T) (cs : List Collection) :
    ∀ dist : List (String × ℚ), (∀ q ∈ dist, 0 ≤ q.2) →
      ∀ q ∈ cs.foldl (collectionStep ad T) dist, 0 ≤ q.2 := by
  induction cs with
  | nil => intro dist hd q hq; exact hd q (by simpa using hq)
  | cons c rest ih =>
    intro dist hd q hq
    rw [List.foldl_cons] at hq
    exact ih _ (collectionStep_val_nonneg ad T hT dist c hd) q hq

/-- C10: the by-total-volume distribution has exactly the input's keys in
the input's order (an address with zero total volume receives an explicit
`0`), the by-collection distribution only ever contains addresses having
strictly positive volume in some collection, and — for nonnegative supply
and volumes — all allocations of both methods are nonnegative. -/
theorem distribution_keys_and_nonneg (ad : List (String × AddressVolume)) (T : ℚ)
    (hT : 0 ≤ T) (hnn : ∀ p ∈ ad, 0 ≤ p.2.total_volume) :
    ((distribute_by_total_volume ad T).map Prod.fst = ad.map Prod.fst) ∧
    (∀ p ∈ ad, p.2.total_volume = 0 →
      (p.1, (0 : ℚ)) ∈ distribute_by_total_volume ad T) ∧
    (∀ q ∈ distribute_by_collection ad T,
      ∃ p ∈ ad, p.1 = q.1 ∧ ∃ c, 0 < p.2.collections c) ∧
    (∀ q ∈ distribute_by_total_volume ad T, 0 ≤ q.2) ∧
    (∀ q ∈ distribute_by_collection ad T, 0 ≤ q.2) := by
  refine ⟨?_, ?_, ?_, ?_, ?_⟩
  · simp [distribute_by_total_volume, List.map_map, Function.comp]
  · intro p hp htv
    simp only [distribute_by_total_volume]
    refine List.mem_map.mpr ⟨p, hp, ?_⟩
    by_cases h : 0 < totalVol ad <;> simp [h, htv]
  · intro q hq
    simp only [distribute_by_collection] at hq
    rcases foldl_collectionStep_key_mem ad T collections_list [] q hq with h | h
    · obtain ⟨c, p, hp, hpq, hpos⟩ := h
      exact ⟨p, hp, hpq, c, hpos⟩
    · simp at h
  · intro q hq
    simp only [distribute_by_total_volume] at hq
    obtain ⟨p, hp, hpq⟩ := List.mem_map.mp hq
    rw [← hpq]
    by_cases h : 0 < totalVol ad
    · simp only [h, if_true]
      exact mul_nonneg (div_nonneg (hnn p hp) h.le) hT
    · simp [h]
  · intro q hq
    simp only [distribute_by_collection] at hq
    exact foldl_collectionStep_val_nonneg ad T hT collections_list []
      (by simp) q hq

theorem distribution_keys_and_nonneg_witness :
    ((distribute_by_total_volume adZ TOTAL_BERA_TOKENS).map Prod.fst =
      adZ.map Prod.fst) ∧
    (∀ p ∈ adZ, p.2.total_volume = 0 →
      (p.1, (0 : ℚ)) ∈ distribute_by_total_volume adZ TOTAL_BERA_TOKENS) ∧
    (∀ q ∈ distribute_by_collection adZ TOTAL_BERA_TOKENS,
      ∃ p ∈ adZ, p.1 = q.1 ∧ ∃ c, 0 < p.2.collections c) ∧
    (∀ q ∈ distribute_by_total_volume adZ TOTAL_BERA_TOKENS, 0 ≤ q.2) ∧
    (∀ q ∈ distribute_by_collection adZ TOTAL_BERA_TOKENS, 0 ≤ q.2) :=
  distribution_keys_and_nonneg adZ TOTAL_BERA_TOKENS (by norm_num [TOTAL_BERA_TOKENS])
    (by intro p hp; simp only [adZ, List.mem_singleton] at hp; simp [hp, avZ])

/-! ### Ranking: stable sort by allocation descending -/

theorem insertAlloc_perm (x : String × ℚ) (s : List (String × ℚ)) :
    (insertAlloc x s).Perm (x :: s) := by
  induction s with
  | nil => simp [insertAlloc]
  | cons y ys ih =>
    simp only [insertAlloc]
    by_cases h : x.2 < y.2
    · rw [if_pos h]
      exact (ih.cons y).trans (List.Perm.swap x y ys)
    · rw [if_neg h]

theorem mem_insertAlloc {x z : String × ℚ} {s : List (String × ℚ)}
    (h : z ∈ insertAlloc x s) : z = x ∨ z ∈ s := by
  have := (insertAlloc_perm x s).mem_iff.mp h
  exact List.mem_cons.mp this

theorem insertAlloc_pairwise (x : String × ℚ) (s : List (String × ℚ))
    (hs : s.Pairwise (fun a b => b.2 ≤ a.2)) :
    (insertAlloc x s).Pairwise (fun a b => b.2 ≤ a.2) := by
  induction s with
  | nil => simp [insertAlloc]
  | cons y ys ih =>
    rcases List.pairwise_cons.mp hs with ⟨hy, hys⟩
    simp only [insertAlloc]
    by_cases h : x.2 < y.2
    · rw [if_pos h]
      refine List.pairwise_cons.mpr ⟨?_, ih hys⟩
      intro z hz
      rcases mem_insertAlloc hz with rfl | hz2
      · exact h.le
      · exact hy z hz2
    · rw [if_neg h]
      refine List.pairwise_cons.mpr ⟨?_, hs⟩
      intro z hz
      rcases List.mem_cons.mp hz with rfl | hz2
      · exact not_lt.mp h
      · exact le_trans (hy z hz2) (not_lt.mp h)

theorem insertAlloc_filter_eq (x : String × ℚ) (s : List (String × ℚ)) (q : ℚ) :
    (insertAlloc x s).filter (fun p => p.2 == q) =
      (if x.2 = q then [x] else []) ++ s.filter (fun p => p.2 == q) := by
  induction s with
  | nil =>
    by_cases h : x.2 = q <;> simp [insertAlloc, List.filter_cons, h]
  | cons y ys ih =>
    simp only [insertAlloc]
    by_cases h : x.2 < y.2
    · rw [if_pos h, List.filter_cons]
      by_cases hy : y.2 = q
      · by_cases hx : x.2 = q
        · exfalso; rw [hx, ← hy] at h; exact lt_irrefl _ h
        · rw [if_pos (by simpa [beq_iff_eq] using hy), ih, if_neg hx]
          simp [List.filter_cons, hy]
      · rw [if_neg (by simpa [beq_iff_eq] using hy), ih]
        simp [List.filter_cons, hy]
    · rw [if_neg h, List.filter_cons, List.filter_cons]
      by_cases hx : x.2 = q <;> by_cases hy : y.2 = q <;>
        simp [hx, hy, List.filter_cons, beq_iff_eq]

theorem rankList_filter_eq (l : List (String × ℚ)) (q : ℚ) :
    (rankList l).filter (fun p => p.2 == q) = l.filter (fun p => p.2 == q) := by
  induction l with
  | nil => rfl
  | cons x xs ih =>
    rw [show rankList (x :: xs) = insertAlloc x (rankList xs) from rfl,
      insertAlloc_filter_eq, ih, List.filter_cons]
    by_cases h : x.2 = q
    · rw [if_pos h, if_pos (by simpa [beq_iff_eq] using h)]
      simp
    · rw [if_neg h, if_neg (by simpa [beq_iff_eq] using h)]
      simp

/-- C4 amended: the ranking of lines 197-200 (`sorted(..., key=lambda x:
x[1]["allocation"], reverse=True)`, a stable sort) returns a permutation of
the input entries sorted by allocation descending, and ties between equal
allocations keep the order in which the entries were enumerated from the
input mapping — they are *not* re-ordered by address.  Determinism holds
only relative to a fixed enumeration order of the input (as a function of
the insertion-ordered entry list, `rankList` is trivially deterministic). -/
theorem rankList_sorted_stable (l : List (String × ℚ)) :
    (rankList l).Perm l ∧
    (rankList l).Pairwise (fun a b => b.2 ≤ a.2) ∧
    (∀ q : ℚ, (rankList l).filter (fun p => p.2 == q) =
      l.filter (fun p => p.2 == q)) := by
  refine ⟨?_, ?_, fun q => rankList_filter_eq l q⟩
  · induction l with
    | nil => exact List.Perm.nil
    | cons x xs ih => exact (insertAlloc_perm x (rankList xs)).trans (ih.cons x)
  · induction l with
    | nil => exact List.Pairwise.nil
    | cons x xs ih => exact insertAlloc_pairwise x (rankList xs) ih

/-- C4 counterexample: two entries with equal allocations, enumerated with
address `0xb` before address `0xa`.  The ranking keeps `0xb` first (stable
order), *not* the address-ascending order `0xa, 0xb` the claim requires,
and enumerating the same mapping in the other order yields a different
output, so the result is not independent of the enumeration order. -/
theorem rankList_tiebreak_counterexample :
    rankList [("0xb", (5 : ℚ)), ("0xa", 5)] = [("0xb", (5 : ℚ)), ("0xa", 5)] ∧
    rankList [("0xb", (5 : ℚ)), ("0xa", 5)] ≠ [("0xa", (5 : ℚ)), ("0xb", 5)] ∧
    rankList [("0xb", (5 : ℚ)), ("0xa", 5)] ≠
      rankList [("0xa", (5 : ℚ)), ("0xb", 5)] := by
  refine ⟨?_, ?_, ?_⟩ <;> simp [rankList, insertAlloc]

/-! ### The sub-range partition of `get_pool_events` -/

theorem subRangesFuel_nil (fuel c t : Nat) (h : ¬ c ≤ t) :
    subRangesFuel fuel c t = [] := by
  cases fuel <;> simp [subRangesFuel, h]

theorem subRangesFuel_spec :
    ∀ (fuel c t : Nat), c ≤ t → t + 1 - c ≤ fuel →
      subRangesFuel fuel c t ≠ [] ∧
      (subRangesFuel fuel c t).head?.map Prod.fst = some c ∧
      (subRangesFuel fuel c t).getLast?.map Prod.snd = some t ∧
      List.Chain' (fun r1 r2 => r2.1 = r1.2 + 1) (subRangesFuel fuel c t) ∧
      ∀ r ∈ subRangesFuel fuel c t, r.1 ≤ r.2 ∧ r.2 ≤ r.1 + chunk_size := by
  intro fuel
  induction fuel with
  | zero => intro c t hct hfuel; exfalso; omega
  | succ fuel ih =>
    intro c t hct hfuel
    by_cases hend : t ≤ c + chunk_size
    · have he : min (c + chunk_size) t = t := min_eq_right hend
      have hrec : subRangesFuel fuel (t + 1) t = [] :=
        subRangesFuel_nil _ _ _ (by omega)
      have hL : subRangesFuel (fuel + 1) c t = [(c, t)] := by
        simp only [subRangesFuel, if_pos hct, he, hrec]
      rw [hL]
      refine ⟨by simp, by simp, by simp, by simp, ?_⟩
      intro r hr
      simp only [List.mem_singleton] at hr
      rw [hr]
      exact ⟨hct, hend⟩
    · push_neg at hend
      have he : min (c + chunk_size) t = c + chunk_size := min_eq_left (by omega)
      have hL : subRangesFuel (fuel + 1) c t =
          (c, c + chunk_size) :: subRangesFuel fuel (c + chunk_size + 1) t := by
        simp only [subRangesFuel, if_pos hct, he]
      obtain ⟨hne, hhead, hlast, hchain, hbound⟩ :=
        ih (c + chunk_size + 1) t (by omega) (by omega)
      obtain ⟨p, rest, htail⟩ : ∃ p rest,
          subRangesFuel fuel (c + chunk_size + 1) t = p :: rest := by
        cases h : subRangesFuel fuel (c + chunk_size + 1) t with
        | nil => exact absurd h hne
        | cons p rest => exact ⟨p, rest, rfl⟩
      have hp1 : p.1 = c + chunk_size + 1 := by
        rw [htail] at hhead
        simpa using hhead
      rw [htail] at hlast hchain hbound
      rw [hL, htail]
      refine ⟨by simp, by simp, ?_, ?_, ?_⟩
      · rw [List.getLast?_cons_cons]
        exact hlast
      · rw [List.chain'_cons]
        exact ⟨hp1, hchain⟩
      · intro r hr
        rcases List.mem_cons.mp hr with rfl | hr2
        · exact ⟨by omega, by omega⟩
        · exact hbound r hr2

/-- C6 amended: for `from_block ≤ to_block`, the sub-ranges visited by the
chunking loop of `get_pool_events` form a contiguous partition of
`[from_block, to_block]` — the first sub-range starts at `from_block`, each
subsequent one starts one block after the previous one ends, the last ends
at `to_block` — and every sub-range `(s, e)` satisfies `e - s ≤ chunk_size`,
i.e. it contains at most `chunk_size + 1 = 5001` blocks (not at most 5000:
the loop queries `[current_block, current_block + chunk_size]` inclusive). -/
theorem scanSubRanges_partition (from_block to_block : Nat)
    (h : from_block ≤ to_block) :
    scanSubRanges from_block to_block ≠ [] ∧
    (scanSubRanges from_block to_block).head?.map Prod.fst = some from_block ∧
    (scanSubRanges from_block to_block).getLast?.map Prod.snd = some to_block ∧
    List.Chain' (fun r1 r2 => r2.1 = r1.2 + 1)
      (scanSubRanges from_block to_block) ∧
    ∀ r ∈ scanSubRanges from_block to_block,
      r.1 ≤ r.2 ∧ r.2 + 1 - r.1 ≤ chunk_size + 1 := by
  obtain ⟨h1, h2, h3, h4, h5⟩ :=
    subRangesFuel_spec (to_block + 1 - from_block) from_block to_block h
      (le_refl _)
  refine ⟨h1, h2, h3, h4, ?_⟩
  intro r hr
  obtain ⟨ha, hb⟩ := h5 r hr
  exact ⟨ha, by omega⟩

/-- C6 counterexample: scanning blocks 0 through 10000 queries the sub-range
`(0, 5000)` first, and that sub-range contains `5001` blocks — strictly more
than the chunk size of 5000 — so "every sub-range spans at most the chunk
size of 5000 blocks" fails when a sub-range's span is counted in blocks. -/
theorem scanSubRanges_spans_counterexample :
    (0, 5000) ∈ scanSubRanges 0 10000 ∧
    ¬ (∀ r ∈ scanSubRanges 0 10000, r.2 + 1 - r.1 ≤ chunk_size) := by
  constructor
  · decide
  · intro h
    have h2 := h (0, 5000) (by decide)
    have hcs : chunk_size = 5000 := rfl
    omega

/-! ### Concrete scans exercising the retry and decoding paths -/

/-- A well-formed raw log (32-byte payload of zeros), log index 0. -/
def dupLog1 : RawLog :=
  { data := List.replicate 64 0, transactionHash := "0xt1",
    blockNumber := 0, logIndex := 0 }

/-- A second well-formed raw log in the same sub-range, log index 1. -/
def dupLog2 : RawLog :=
  { data := List.replicate 64 0, transactionHash := "0xt2",
    blockNumber := 0, logIndex := 1 }

/-- A transport whose `get_logs` always succeeds with the two logs above and
whose `get_transaction` fails exactly on the third RPC call of the run —
i.e. on the transaction lookup for the second log of the first attempt,
after the first log's event has already been appended. -/
def dupTransport : Transport :=
  { getLogs := fun _ _ => some [dupLog1, dupLog2]
    getTransaction := fun k _ => if k = 2 then none else some "0xAAA" }

/-- The event decoded from `dupLog1`. -/
def dupEvent1 : Event :=
  { pool := "POOL", tx_hash := "0xt1", block_number := 0,
    address := "0xAAA", amount_in := 0, log_index := 0 }

/-- The event decoded from `dupLog2`. -/
def dupEvent2 : Event :=
  { pool := "POOL", tx_hash := "0xt2", block_number := 0,
    address := "0xAAA", amount_in := 0, log_index := 1 }

/-- C3: evaluating `get_pool_events` over the single sub-range `[0, 0]`
against `dupTransport`: the first attempt appends the event of the first
log, then fails on the second log's transaction lookup; the `except` branch
retries the sub-range with the partially extended `events` list kept, and
the retry appends both logs' events again.  The scan returns the first
log's record twice — two entries with the same (transaction hash,
log index) — so a failed sub-range attempt does not leave the collected
events unchanged, and retries do duplicate trade records. -/
theorem get_pool_events_retry_duplicates :
    get_pool_events dupTransport "POOL" 3 0 0 0 [] =
      some [dupEvent1, dupEvent1, dupEvent2] ∧
    ¬ (([dupEvent1, dupEvent1, dupEvent2]).map
        (fun e => (e.tx_hash, e.log_index))).Nodup :=
  ⟨by decide, by decide⟩

/-- A raw log whose data payload is 2 bytes (4 hex digits), far shorter
than 32 bytes. -/
def shortLog : RawLog :=
  { data := [1, 2, 3, 4], transactionHash := "0xt",
    blockNumber := 7, logIndex := 0 }

/-- A transport that always succeeds, returning only `shortLog`. -/
def okTransport : Transport :=
  { getLogs := fun _ _ => some [shortLog]
    getTransaction := fun _ _ => some "0xSender" }

/-- C7: decoding a log whose data payload is shorter than 32 bytes does not
fail: `int(log["data"][:66], 16)` simply parses the shorter hex string, and
the scan emits a trade record whose amount is the truncated value `0x1234 =
4660`.  No error is raised and no retry happens — the sub-range completes
successfully with the corrupted record. -/
theorem get_pool_events_short_payload_truncates :
    shortLog.data.length < 64 ∧
    get_pool_events okTransport "POOL" 2 0 0 0 [] =
      some [{ pool := "POOL", tx_hash := "0xt", block_number := 7,
              address := "0xSender", amount_in := 4660, log_index := 0 }] :=
  ⟨by decide, by decide⟩

theorem scanSubRanges_partition_witness :
    scanSubRanges 0 10000 ≠ [] ∧
    (scanSubRanges 0 10000).head?.map Prod.fst = some 0 ∧
    (scanSubRanges 0 10000).getLast?.map Prod.snd = some 10000 ∧
    List.Chain' (fun r1 r2 => r2.1 = r1.2 + 1) (scanSubRanges 0 10000) ∧
    ∀ r ∈ scanSubRanges 0 10000, r.1 ≤ r.2 ∧ r.2 + 1 - r.1 ≤ chunk_size + 1 :=
  scanSubRanges_partition 0 10000 (by decide)
